import Mathlib

namespace GitIgnore

/-! ## Definitions: Rust string and line primitives, `src/ignore.rs`, `src/git.rs` -/

/-- The Unicode White_Space property, as used by Rust `char::is_whitespace`
(and hence by `str::trim`). -/
def rustIsWhitespace (c : Char) : Bool :=
  c = ' ' || c = '\t' || c = '\n' || c.val = 11 || c.val = 12 || c = '\r' ||
  c.val = 0x85 || c.val = 0xA0 || c.val = 0x1680 ||
  (0x2000 ≤ c.val && c.val ≤ 0x200A) ||
  c.val = 0x2028 || c.val = 0x2029 || c.val = 0x202F || c.val = 0x205F ||
  c.val = 0x3000

/-- Trim leading whitespace (the front half of Rust `str::trim`). -/
def trimLeft (s : List Char) : List Char := s.dropWhile rustIsWhitespace

/-- Trim trailing whitespace (the back half of Rust `str::trim`). -/
def trimRight (s : List Char) : List Char :=
  ((s.reverse).dropWhile rustIsWhitespace).reverse

/-- Rust `str::trim`: drop whitespace from both ends. -/
def rustTrim (s : List Char) : List Char := trimLeft (trimRight s)

/-- Abbreviation turning a Lean string literal into the `List Char`
representation used throughout. -/
def cl (s : String) : List Char := s.toList

/-- Split a character list at every newline.  Always returns one piece more
than the number of newlines (a trailing newline yields a trailing empty
piece). -/
def splitOnNl : List Char → List (List Char)
  | [] => [[]]
  | c :: cs =>
    if c = '\n' then [] :: splitOnNl cs
    else
      match splitOnNl cs with
      | h :: t => (c :: h) :: t
      | [] => [[c]]

/-- Strip a single trailing carriage return, as `BufRead::lines` does after
stripping the newline terminator of a line. -/
def stripTrailingCr (l : List Char) : List Char :=
  if l.getLast? = some '\r' then l.dropLast else l

/-- Rust `BufRead::lines` over the whole content: every newline-terminated
piece with its terminator (and one trailing `\r`, if any) removed, plus the
final unterminated piece when it is non-empty (the final piece is not
`\r`-stripped, matching the standard library). -/
def rustLines (c : List Char) : List (List Char) :=
  let ps := splitOnNl c
  ps.dropLast.map stripTrailingCr ++
    (match ps.getLast? with
     | some [] => []
     | some l => [l]
     | none => [])

/-- The block of bytes that the writer emits for a list of patterns: each
pattern followed by a newline. -/
def writtenBlock (patterns : List (List Char)) : List Char :=
  (patterns.map (fun p => p ++ ['\n'])).flatten

/-- `sanitize_pattern` (src/ignore.rs): remove every newline and carriage
return, then trim surrounding whitespace. -/
def sanitize_pattern (pattern : List Char) : List Char :=
  rustTrim (pattern.filter (fun c => !(c = '\n' || c = '\r')))

/-- Rust `pattern.matches("**").count()`: the number of non-overlapping
occurrences of a double star, scanning left to right. -/
def countDoubleStar : List Char → Nat
  | '*' :: '*' :: rest => countDoubleStar rest + 1
  | _ :: rest => countDoubleStar rest
  | [] => 0

/-- Pattern validation severity levels (src/lib.rs `PatternSeverity`). -/
inductive PatternSeverity where
  | Info
  | Warning
  | Error
  deriving DecidableEq, Repr

/-- A pattern validation issue (src/lib.rs `PatternIssue`). -/
structure PatternIssue where
  pattern : List Char
  severity : PatternSeverity
  message : String
  deriving DecidableEq, Repr

/-- Pattern validation level (src/lib.rs `PatternValidationLevel`); the
parameter is accepted but ignored by `add_patterns_to_ignore_file`. -/
inductive PatternValidationLevel where
  | NoValidation
  | Warn
  | Strict
  deriving DecidableEq, Repr

/-- `read_ignore_patterns` (src/ignore.rs).  A file is `Option (List Char)`
(`none` when the file does not exist).  The Rust function returns a
`HashSet<String>`; here the set is modelled by a list up to membership:
the trimmed form of every non-empty, non-comment line. -/
def read_ignore_patterns (file : Option (List Char)) : List (List Char) :=
  match file with
  | none => []
  | some content =>
    ((rustLines content).map rustTrim).filter
      (fun trimmed => !trimmed.isEmpty && !(decide (trimmed.head? = some '#')))

/-- `write_ignore_patterns` (src/ignore.rs), happy filesystem path: returns
the new state of the target file.  Missing patterns-to-write cases return the
file untouched; in append mode a leading newline separates the new block
from a non-empty existing file; truncate mode starts from empty content. -/
def write_ignore_patterns (file : Option (List Char))
    (patterns : List (List Char)) (append : Bool) : Option (List Char) :=
  if patterns.isEmpty then file
  else
    let sanitized_patterns := (patterns.map sanitize_pattern).filter
      (fun p => !p.isEmpty)
    if sanitized_patterns.isEmpty then file
    else
      let opened : List Char := if append then file.getD [] else []
      let lead : List Char := if append && !opened.isEmpty then ['\n'] else []
      some (opened ++ lead ++ writtenBlock sanitized_patterns)

/-- `add_patterns_to_ignore_file` (src/ignore.rs): returns the pair of the
list of patterns actually added (the function's return value) and the new
state of the target file.  The validation-level parameter is ignored, as in
the source. -/
def add_patterns_to_ignore_file (file : Option (List Char))
    (new_patterns : List (List Char)) (avoid_duplicates : Bool)
    (_validation_level : PatternValidationLevel) :
    List (List Char) × Option (List Char) :=
  if new_patterns.isEmpty then ([], file)
  else
    let existing_patterns :=
      if avoid_duplicates then read_ignore_patterns file else []
    let patterns_to_add := (new_patterns.map sanitize_pattern).filter
      (fun p => !p.isEmpty &&
        (!avoid_duplicates || !(decide (p ∈ existing_patterns))))
    (patterns_to_add,
     if !patterns_to_add.isEmpty then
       write_ignore_patterns file patterns_to_add true
     else file)

/-- The issues that `validate_ignore_patterns` (src/ignore.rs) pushes for a
single raw pattern: nothing when the sanitized form is empty, otherwise the
checks in source order. -/
def issues_for_pattern (original_pattern : List Char) : List PatternIssue :=
  let pattern := sanitize_pattern original_pattern
  if pattern.isEmpty then []
  else
    (if decide ('\n' ∈ original_pattern) || decide ('\r' ∈ original_pattern) then
      [{ pattern := original_pattern, severity := PatternSeverity.Error,
         message :=
           "Pattern contains newline characters which will corrupt the ignore file" }]
     else []) ++
    (if decide (pattern.head? = some '/') && decide (pattern.getLast? = some '/')
        && decide (2 < pattern.length) then
      [{ pattern := pattern, severity := PatternSeverity.Info,
         message :=
           "Pattern has leading and trailing slashes - might be too restrictive" }]
     else []) ++
    (if decide (pattern.take 2 = cl "./") then
      [{ pattern := pattern, severity := PatternSeverity.Info,
         message := "Pattern starts with './' which is redundant" }]
     else []) ++
    (if decide (1 < countDoubleStar pattern) then
      [{ pattern := pattern, severity := PatternSeverity.Warning,
         message := "Pattern contains multiple '**' which may not work as expected" }]
     else []) ++
    (if decide (pattern = cl "*" ∨ pattern = cl "**" ∨ pattern = cl "/") then
      [{ pattern := pattern, severity := PatternSeverity.Warning,
         message := "Pattern is very broad and may ignore more than intended" }]
     else []) ++
    (if decide (pattern = cl ".git" ∨ pattern = cl ".gitignore" ∨
        pattern = cl "README*" ∨ pattern = cl "LICENSE*") then
      [{ pattern := pattern, severity := PatternSeverity.Warning,
         message := "Pattern might ignore important project files" }]
     else [])

/-- `validate_ignore_patterns` (src/ignore.rs): the for-loop pushing issues
per pattern, in input order. -/
def validate_ignore_patterns (patterns : List (List Char)) : List PatternIssue :=
  patterns.flatMap issues_for_pattern

/-- The content of the target file after `write_ignore_patterns` appends a
block of (already non-empty, sanitized) patterns to content `c`. -/
def appendedContent (c : List Char) (added : List (List Char)) : List Char :=
  c ++ (if c.isEmpty then [] else ['\n']) ++ writtenBlock added

/-- The error type used by the resolver functions.  Its definition is not in
the repository sources; the variants and their fields are taken from their
construction sites in `src/git.rs` (`GitError::NotFound`,
`GitError::NotInRepository { cwd, message }`,
`GitError::CommandFailed { message }`). -/
inductive GitError where
  | NotFound
  | NotInRepository (cwd message : List Char)
  | CommandFailed (message : List Char)
  deriving DecidableEq, Repr

/-- The process-wide state of the two `OnceLock` caches `GIT_DIR_CACHE` and
`REPO_ROOT_CACHE` (src/git.rs): each holds `none` before initialization and
afterwards the stored `Result`, success or failure alike. -/
structure ProcessState where
  gitDirCache : Option (Except GitError (List Char))
  repoRootCache : Option (Except GitError (List Char))

/-- `OnceLock::get_or_init`: if the cell is filled, return the stored value
without running the initializer; otherwise run it, store its result and
return it.  The third component records whether the initializer (and hence
the external git tool) was invoked. -/
def once_lock_get_or_init {α : Type} (cache : Option α) (init : α) :
    α × Option α × Bool :=
  match cache with
  | some v => (v, some v, false)
  | none => (init, some init, true)

/-- `get_git_dir` (src/git.rs).  `resolve` is the value the cache
initializer closure (`run_git_command` + `validate_git_path`) would produce
if it ran; the returned flag says whether it ran.  The source's
`.as_ref().map(clone).map_err(clone)` returns the stored value unchanged. -/
def get_git_dir (resolve : Except GitError (List Char)) (s : ProcessState) :
    Except GitError (List Char) × ProcessState × Bool :=
  let r := once_lock_get_or_init s.gitDirCache resolve
  (r.1, { s with gitDirCache := r.2.1 }, r.2.2)

/-- `get_repo_root` (src/git.rs): same contract as `get_git_dir` over the
other cache. -/
def get_repo_root (resolve : Except GitError (List Char)) (s : ProcessState) :
    Except GitError (List Char) × ProcessState × Bool :=
  let r := once_lock_get_or_init s.repoRootCache resolve
  (r.1, { s with repoRootCache := r.2.1 }, r.2.2)

/-- The environment `get_global_gitignore_path` consults.
`configExcludesfile` is `some output` when
`git config --global core.excludesfile` succeeds with the (trimmed,
non-empty) output; `home` and `xdgConfigHome` model `$HOME` and
`$XDG_CONFIG_HOME`; `fileExists` models `Path::exists`. -/
structure GlobalEnv where
  configExcludesfile : Option (List Char)
  home : Option (List Char)
  xdgConfigHome : Option (List Char)
  fileExists : List Char → Bool

/-- Rust `Path::is_absolute` for Unix paths: starts with a slash. -/
def path_is_absolute (p : List Char) : Bool := decide (p.head? = some '/')

/-- Rust `Path::starts_with("~")` compares whole components: true exactly for
`~` itself or a path whose first component is `~`. -/
def path_starts_with_tilde (p : List Char) : Bool :=
  decide (p = cl "~") || decide (p.take 2 = cl "~/")

/-- Rust `path.strip_prefix("~")`: drop the leading `~` component. -/
def strip_tilde (p : List Char) : List Char :=
  if p = cl "~" then [] else p.drop 2

/-- Rust `PathBuf::join` for the paths this program builds: an absolute
right operand replaces the base, a relative one is appended after a
separator. -/
def path_join (base p : List Char) : List Char :=
  if path_is_absolute p then p else base ++ ['/'] ++ p

/-- The `$HOME`-based fallback chain at the end of
`get_global_gitignore_path` (src/git.rs lines 115-132). -/
def home_default_gitignore (env : GlobalEnv) : Option (List Char) :=
  match env.home with
  | some home =>
    let p1 := path_join (path_join (path_join home (cl ".config")) (cl "git")) (cl "ignore")
    if env.fileExists p1 then some p1
    else
      let p2 := path_join home (cl ".gitignore_global")
      if env.fileExists p2 then some p2
      else
        let p3 := path_join home (cl ".gitignore")
        if env.fileExists p3 then some p3 else none
  | none => none

/-- The default-locations chain of `get_global_gitignore_path`
(src/git.rs lines 107-134): `$XDG_CONFIG_HOME/git/ignore` first, then the
`$HOME` candidates. -/
def default_gitignore_locations (env : GlobalEnv) : Option (List Char) :=
  match env.xdgConfigHome with
  | some xdg =>
    let p := path_join (path_join xdg (cl "git")) (cl "ignore")
    if env.fileExists p then some p else home_default_gitignore env
  | none => home_default_gitignore env

/-- `get_global_gitignore_path` (src/git.rs).  Mirrors the source exactly:
when the configured excludes file needs home expansion and `$HOME` is
unset, the function returns `None` immediately (the early `return None`),
without falling back to the default locations. -/
def get_global_gitignore_path (env : GlobalEnv) : Option (List Char) :=
  match env.configExcludesfile with
  | some output =>
    let path := output
    let expanded : Option (List Char) :=
      if path_starts_with_tilde path then
        match env.home with
        | some home => some (path_join home (strip_tilde path))
        | none => none
      else if !path_is_absolute path then
        match env.home with
        | some home => some (path_join home path)
        | none => none
      else some path
    match expanded with
    | some e => if env.fileExists e then some e else default_gitignore_locations env
    | none => none
  | none => default_gitignore_locations env

/-- Modelled from the spec: the expansion of the configured global-excludes
setting against the home directory, as claim C5 words it ("with a leading
'~' or relative path expanded against the home directory"); `none` when the
expansion would need an unknown home directory. -/
def spec_expand_against_home (home : Option (List Char)) (p : List Char) :
    Option (List Char) :=
  if path_starts_with_tilde p then
    match home with
    | some h => some (path_join h (strip_tilde p))
    | none => none
  else if !path_is_absolute p then
    match home with
    | some h => some (path_join h p)
    | none => none
  else some p

/-- Modelled from the spec: the ordered candidate list of claim C5 — the
expanded configured setting, `$XDG_CONFIG_HOME/git/ignore`,
`$HOME/.config/git/ignore`, `$HOME/.gitignore_global`, `$HOME/.gitignore`;
a candidate whose environment pieces are unknown is absent. -/
def spec_global_candidates (env : GlobalEnv) : List (List Char) :=
  (match env.configExcludesfile with
   | some p =>
     match spec_expand_against_home env.home p with
     | some e => [e]
     | none => []
   | none => []) ++
  (match env.xdgConfigHome with
   | some xdg => [path_join (path_join xdg (cl "git")) (cl "ignore")]
   | none => []) ++
  (match env.home with
   | some home =>
     [path_join (path_join (path_join home (cl ".config")) (cl "git")) (cl "ignore"),
      path_join home (cl ".gitignore_global"),
      path_join home (cl ".gitignore")]
   | none => [])

/-- Modelled from the spec (claim C5): return the first candidate, in
order, that exists on disk. -/
def spec_resolveGlobalIgnorePath (env : GlobalEnv) : Option (List Char) :=
  (spec_global_candidates env).find? env.fileExists

/-- Whether the configured global-excludes setting requires home expansion
while no home directory is known — the situation in which the source takes
its early `return None`. -/
def config_expansion_blocked (env : GlobalEnv) : Bool :=
  match env.configExcludesfile with
  | some p => (spec_expand_against_home env.home p).isNone
  | none => false

/-! ## Lemmas -/

theorem dropWhile_idem (p : Char → Bool) (l : List Char) :
    (l.dropWhile p).dropWhile p = l.dropWhile p := by
  induction l with
  | nil => rfl
  | cons a t ih =>
    by_cases h : p a = true
    · simp [List.dropWhile, h, ih]
    · simp [List.dropWhile, h]

theorem mem_dropWhile {p : Char → Bool} {l : List Char} {c : Char}
    (h : c ∈ l.dropWhile p) : c ∈ l := by
  induction l with
  | nil => simp [List.dropWhile] at h
  | cons a t ih =>
    by_cases hp : p a = true
    · simp only [List.dropWhile, hp] at h
      exact List.mem_cons_of_mem _ (ih h)
    · simpa [List.dropWhile, hp] using h

theorem mem_trimLeft {l : List Char} {c : Char} (h : c ∈ trimLeft l) : c ∈ l :=
  mem_dropWhile h

theorem mem_trimRight {l : List Char} {c : Char} (h : c ∈ trimRight l) : c ∈ l := by
  unfold trimRight at h
  have h1 := mem_dropWhile (List.mem_reverse.mp h)
  exact List.mem_reverse.mp h1

theorem mem_rustTrim {l : List Char} {c : Char} (h : c ∈ rustTrim l) : c ∈ l :=
  mem_trimRight (mem_trimLeft h)

theorem trimRight_idem (s : List Char) : trimRight (trimRight s) = trimRight s := by
  unfold trimRight
  simp [List.reverse_reverse, dropWhile_idem]

theorem dropWhile_getLast?_eq {p : Char → Bool} (l : List Char) :
    l.dropWhile p = [] ∨ (l.dropWhile p).getLast? = l.getLast? := by
  induction l with
  | nil => left; rfl
  | cons a t ih =>
    by_cases hp : p a = true
    · simp only [List.dropWhile, hp]
      rcases ih with h | h
      · left; exact h
      · cases t with
        | nil => left; simp [List.dropWhile, hp]
        | cons b u => right; rw [h]; simp
    · right; simp [List.dropWhile, hp]

theorem dropWhile_eq_self_of_head {p : Char → Bool} (l : List Char)
    (h : ∀ c, l.head? = some c → p c = false) : l.dropWhile p = l := by
  cases l with
  | nil => rfl
  | cons a t =>
    have := h a rfl
    simp [List.dropWhile, this]

theorem trimRight_eq_self_of_getLast? (l : List Char)
    (h : ∀ c, l.getLast? = some c → rustIsWhitespace c = false) :
    trimRight l = l := by
  unfold trimRight
  have hh : ∀ c, l.reverse.head? = some c → rustIsWhitespace c = false := by
    intro c hc
    exact h c (by simpa [List.head?_reverse] using hc)
  rw [dropWhile_eq_self_of_head _ hh, List.reverse_reverse]

theorem getLast?_trimRight_not_ws (s : List Char) :
    ∀ c, (trimRight s).getLast? = some c → rustIsWhitespace c = false := by
  intro c hc
  unfold trimRight at hc
  rw [List.getLast?_reverse] at hc
  cases hds : (s.reverse).dropWhile rustIsWhitespace with
  | nil => rw [hds] at hc; simp at hc
  | cons a t =>
    rw [hds] at hc
    have hac : a = c := by simpa using hc
    have hl : 0 < ((s.reverse).dropWhile rustIsWhitespace).length := by
      rw [hds]; simp
    have hn := List.dropWhile_get_zero_not (p := rustIsWhitespace) s.reverse hl
    have hget : ((s.reverse).dropWhile rustIsWhitespace).get ⟨0, hl⟩ = c := by
      simp [hds, hac]
    rw [hget] at hn
    simpa using hn

theorem trimLeft_trimRight_getLast? (l : List Char)
    (hl : ∀ c, l.getLast? = some c → rustIsWhitespace c = false) :
    ∀ c, (trimLeft l).getLast? = some c → rustIsWhitespace c = false := by
  intro c hc
  rcases dropWhile_getLast?_eq (p := rustIsWhitespace) l with h | h
  · unfold trimLeft at hc; rw [h] at hc; simp at hc
  · unfold trimLeft at hc
    rw [h] at hc
    exact hl c hc

theorem rustTrim_idem (s : List Char) : rustTrim (rustTrim s) = rustTrim s := by
  unfold rustTrim
  have h1 : ∀ c, (trimLeft (trimRight s)).getLast? = some c →
      rustIsWhitespace c = false :=
    trimLeft_trimRight_getLast? _ (getLast?_trimRight_not_ws s)
  rw [trimRight_eq_self_of_getLast? _ h1]
  unfold trimLeft
  rw [dropWhile_idem]

theorem rustTrim_append_cr (x : List Char) :
    rustTrim (x ++ ['\r']) = rustTrim x := by
  unfold rustTrim trimRight
  have : rustIsWhitespace '\r' = true := by decide
  simp [List.dropWhile, this]

theorem splitOnNl_ne_nil (s : List Char) : splitOnNl s ≠ [] := by
  induction s with
  | nil => simp [splitOnNl]
  | cons a t ih =>
    by_cases h : a = '\n'
    · simp [splitOnNl, h]
    · simp only [splitOnNl, h, if_false]
      cases hs : splitOnNl t with
      | nil => simp
      | cons x xs => simp

theorem splitOnNl_append_nl (a b : List Char) :
    splitOnNl (a ++ '\n' :: b) = splitOnNl a ++ splitOnNl b := by
  induction a with
  | nil => simp [splitOnNl]
  | cons c t ih =>
    by_cases h : c = '\n'
    · simp [splitOnNl, h, ih]
    · cases hst : splitOnNl t with
      | nil => exact absurd hst (splitOnNl_ne_nil t)
      | cons x xs => simp [splitOnNl, h, ih, hst]

theorem splitOnNl_no_nl (a : List Char) (h : '\n' ∉ a) : splitOnNl a = [a] := by
  induction a with
  | nil => rfl
  | cons c t ih =>
    have hc : c ≠ '\n' := fun hc => h (hc ▸ List.mem_cons_self c t)
    have ht : '\n' ∉ t := fun ht => h (List.mem_cons_of_mem c ht)
    simp [splitOnNl, hc, ih ht]

theorem splitOnNl_writtenBlock (patterns : List (List Char)) (rest : List Char)
    (h : ∀ p ∈ patterns, '\n' ∉ p) :
    splitOnNl (writtenBlock patterns ++ rest) = patterns ++ splitOnNl rest := by
  induction patterns with
  | nil => simp [writtenBlock]
  | cons p t ih =>
    have hp : '\n' ∉ p := h p (List.mem_cons_self p t)
    have ht : ∀ q ∈ t, '\n' ∉ q := fun q hq => h q (List.mem_cons_of_mem p hq)
    have : writtenBlock (p :: t) ++ rest = p ++ '\n' :: (writtenBlock t ++ rest) := by
      simp [writtenBlock]
    rw [this, splitOnNl_append_nl, splitOnNl_no_nl p hp, ih ht]
    simp

theorem stripTrailingCr_no_cr (l : List Char) (h : '\r' ∉ l) :
    stripTrailingCr l = l := by
  unfold stripTrailingCr
  cases hl : l.getLast? with
  | none => simp
  | some c =>
    have hcl : c ∈ l := by
      have h2 := List.dropLast_append_getLast? (l := l) c (by simp [hl])
      rw [← h2]; simp
    have hc : c ≠ '\r' := fun hc => h (hc ▸ hcl)
    simp [hl, hc]

theorem rustTrim_stripTrailingCr (l : List Char) :
    rustTrim (stripTrailingCr l) = rustTrim l := by
  unfold stripTrailingCr
  cases hl : l.getLast? with
  | none => simp
  | some c =>
    by_cases hc : c = '\r'
    · subst hc
      rw [if_pos rfl]
      have hx : l = l.dropLast ++ ['\r'] := by
        have h2 := List.dropLast_append_getLast? (l := l) '\r' (by simp [hl])
        exact h2.symm
      conv_rhs => rw [hx]
      rw [rustTrim_append_cr]
    · simp [hc]

/-- `rustLines` of a fully newline-terminated block: exactly the patterns,
provided no pattern contains a newline or ends with a carriage return. -/
theorem rustLines_writtenBlock (patterns : List (List Char))
    (hnl : ∀ p ∈ patterns, '\n' ∉ p) (hcr : ∀ p ∈ patterns, '\r' ∉ p) :
    rustLines (writtenBlock patterns) = patterns := by
  unfold rustLines
  have h1 : splitOnNl (writtenBlock patterns) = patterns ++ [[]] := by
    have := splitOnNl_writtenBlock patterns [] hnl
    simpa [splitOnNl] using this
  rw [h1]
  simp only [List.dropLast_concat, List.getLast?_concat]
  rw [List.map_congr_left (fun p hp => stripTrailingCr_no_cr p (hcr p hp))]
  simp

/-- `rustLines` after appending a separating newline and a block: the old
pieces (each `\r`-stripped) followed by the new patterns. -/
theorem rustLines_append_block (c : List Char) (patterns : List (List Char))
    (hnl : ∀ p ∈ patterns, '\n' ∉ p) (hcr : ∀ p ∈ patterns, '\r' ∉ p) :
    rustLines (c ++ '\n' :: writtenBlock patterns) =
      (splitOnNl c).map stripTrailingCr ++ patterns := by
  unfold rustLines
  have h1 : splitOnNl (c ++ '\n' :: writtenBlock patterns) =
      splitOnNl c ++ (patterns ++ [[]]) := by
    rw [splitOnNl_append_nl]
    have := splitOnNl_writtenBlock patterns [] hnl
    simpa [splitOnNl] using this
  rw [h1]
  have h2 : splitOnNl c ++ (patterns ++ [[]]) =
      (splitOnNl c ++ patterns) ++ [[]] := by simp
  rw [h2]
  simp only [List.dropLast_concat, List.getLast?_concat]
  rw [List.map_append,
    List.map_congr_left (fun p hp => stripTrailingCr_no_cr p (hcr p hp))]
  simp

theorem sanitize_pattern_no_nl {p : List Char} : '\n' ∉ sanitize_pattern p := by
  intro h
  have h1 := mem_rustTrim h
  rw [List.mem_filter] at h1
  simp at h1

theorem sanitize_pattern_no_cr {p : List Char} : '\r' ∉ sanitize_pattern p := by
  intro h
  have h1 := mem_rustTrim h
  rw [List.mem_filter] at h1
  simp at h1

theorem rustTrim_sanitize_pattern (p : List Char) :
    rustTrim (sanitize_pattern p) = sanitize_pattern p := by
  unfold sanitize_pattern
  rw [rustTrim_idem]

theorem sanitize_pattern_idem (p : List Char) :
    sanitize_pattern (sanitize_pattern p) = sanitize_pattern p := by
  conv_lhs => rw [sanitize_pattern]
  have hf : (sanitize_pattern p).filter (fun c => !(c = '\n' || c = '\r')) =
      sanitize_pattern p := by
    rw [List.filter_eq_self]
    intro c hc
    have hn : c ≠ '\n' := fun h => sanitize_pattern_no_nl (h ▸ hc)
    have hr : c ≠ '\r' := fun h => sanitize_pattern_no_cr (h ▸ hc)
    simp [hn, hr]
  rw [hf, rustTrim_sanitize_pattern]

theorem write_ignore_patterns_sanitized (file : Option (List Char))
    (added : List (List Char))
    (h : ∀ q ∈ added, sanitize_pattern q = q ∧ q ≠ []) (hne : added ≠ []) :
    write_ignore_patterns file added true =
      some (appendedContent (file.getD []) added) := by
  unfold write_ignore_patterns
  have hmap : added.map sanitize_pattern = added :=
    List.map_congr_left (fun q hq => (h q hq).1) |>.trans (List.map_id added)
  have hfil : (added.map sanitize_pattern).filter (fun p => !p.isEmpty) = added := by
    rw [hmap, List.filter_eq_self]
    intro q hq
    simpa using (h q hq).2
  rw [if_neg (by simpa using hne)]
  simp only [hfil]
  rw [if_neg (by simpa using hne)]
  unfold appendedContent
  cases hfe : (file.getD []).isEmpty <;> simp [hfe]

theorem add_patterns_added_eq (file : Option (List Char))
    (new_patterns : List (List Char)) (avoid_duplicates : Bool)
    (vl : PatternValidationLevel) :
    (add_patterns_to_ignore_file file new_patterns avoid_duplicates vl).1 =
      (new_patterns.map sanitize_pattern).filter
        (fun p => !p.isEmpty && (!avoid_duplicates ||
          !(decide (p ∈ read_ignore_patterns file)))) := by
  unfold add_patterns_to_ignore_file
  by_cases hne : new_patterns.isEmpty
  · have : new_patterns = [] := by simpa using hne
    subst this
    cases avoid_duplicates <;> rfl
  · rw [if_neg hne]
    cases avoid_duplicates <;> rfl

theorem add_patterns_file_eq (file : Option (List Char))
    (new_patterns : List (List Char)) (avoid_duplicates : Bool)
    (vl : PatternValidationLevel) :
    (add_patterns_to_ignore_file file new_patterns avoid_duplicates vl).2 =
      (if !(add_patterns_to_ignore_file file new_patterns avoid_duplicates vl).1.isEmpty
       then write_ignore_patterns file
         (add_patterns_to_ignore_file file new_patterns avoid_duplicates vl).1 true
       else file) := by
  unfold add_patterns_to_ignore_file
  by_cases hne : new_patterns.isEmpty
  · have h0 : new_patterns = [] := by simpa using hne
    subst h0
    cases avoid_duplicates <;> rfl
  · rw [if_neg hne]

theorem add_patterns_added_sanitized (file : Option (List Char))
    (new_patterns : List (List Char)) (avoid_duplicates : Bool)
    (vl : PatternValidationLevel) :
    ∀ q ∈ (add_patterns_to_ignore_file file new_patterns avoid_duplicates vl).1,
      sanitize_pattern q = q ∧ q ≠ [] := by
  intro q hq
  rw [add_patterns_added_eq] at hq
  have h1 := List.mem_of_mem_filter hq
  have h2 := List.of_mem_filter hq
  rw [List.mem_map] at h1
  obtain ⟨p, _, rfl⟩ := h1
  refine ⟨sanitize_pattern_idem p, ?_⟩
  intro hnil
  rw [hnil] at h2
  simp at h2

/-- Membership in the set read back from an existing file. -/
theorem mem_read_ignore_patterns_some {content : List Char} {p : List Char} :
    p ∈ read_ignore_patterns (some content) ↔
      ((∃ l ∈ rustLines content, rustTrim l = p) ∧ p ≠ [] ∧
        p.head? ≠ some '#') := by
  unfold read_ignore_patterns
  rw [List.mem_filter]
  simp only [List.mem_map, Bool.and_eq_true, Bool.not_eq_eq_eq_not, Bool.not_true,
    List.isEmpty_eq_false, decide_eq_false_iff_not, ne_eq]

/-- Every line of a file reappears, up to trimming, among the
`\r`-stripped pieces of the raw split. -/
theorem lines_trim_in_pieces (c : List Char) :
    ∀ l ∈ rustLines c, ∃ m ∈ (splitOnNl c).map stripTrailingCr,
      rustTrim m = rustTrim l := by
  intro l hl
  unfold rustLines at hl
  rw [List.mem_append] at hl
  rcases hl with hl | hl
  · refine ⟨l, ?_, rfl⟩
    rw [List.mem_map] at hl ⊢
    obtain ⟨m, hm, rfl⟩ := hl
    exact ⟨m, List.dropLast_sublist _ |>.mem hm, rfl⟩
  · have hlast : (splitOnNl c).getLast? = some l := by
      cases hg : (splitOnNl c).getLast? with
      | none => rw [hg] at hl; simp at hl
      | some x =>
        rw [hg] at hl
        cases x with
        | nil => simp at hl
        | cons a t =>
          have hla : l = a :: t := by simpa using hl
          rw [hla]
    refine ⟨stripTrailingCr l, ?_, rustTrim_stripTrailingCr l⟩
    rw [List.mem_map]
    refine ⟨l, ?_, rfl⟩
    have h2 := List.dropLast_append_getLast? (l := splitOnNl c) l (by simp [hlast])
    rw [← h2]
    simp

/-- Reading after the writer appends a block: everything readable before is
still readable, and every appended sanitized non-comment pattern is
readable. -/
theorem mem_read_appendedContent (c : List Char) (added : List (List Char))
    (h : ∀ q ∈ added, sanitize_pattern q = q ∧ q ≠ []) :
    (∀ p, p ∈ read_ignore_patterns (some c) →
       p ∈ read_ignore_patterns (some (appendedContent c added))) ∧
    (∀ q ∈ added, q.head? ≠ some '#' →
       q ∈ read_ignore_patterns (some (appendedContent c added))) := by
  have hnl : ∀ q ∈ added, '\n' ∉ q := by
    intro q hq
    rw [← (h q hq).1]
    exact sanitize_pattern_no_nl
  have hcr : ∀ q ∈ added, '\r' ∉ q := by
    intro q hq
    rw [← (h q hq).1]
    exact sanitize_pattern_no_cr
  have hlines : ∀ m, m ∈ rustLines (appendedContent c added) ↔
      (m ∈ (if c.isEmpty then ([] : List (List Char))
            else (splitOnNl c).map stripTrailingCr) ∨ m ∈ added) := by
    intro m
    unfold appendedContent
    cases hce : c.isEmpty with
    | true =>
      have hcnil : c = [] := by simpa using hce
      subst hcnil
      rw [if_pos rfl]
      simp only [List.nil_append]
      rw [rustLines_writtenBlock added hnl hcr]
      simp
    | false =>
      rw [if_neg (by simp)]
      have : c ++ ['\n'] ++ writtenBlock added = c ++ '\n' :: writtenBlock added := by
        simp
      rw [this, rustLines_append_block c added hnl hcr]
      simp
  constructor
  · intro p hp
    rw [mem_read_ignore_patterns_some] at hp ⊢
    obtain ⟨⟨l, hl, rfl⟩, h1, h2⟩ := hp
    have hce : c.isEmpty = false := by
      by_contra hcon
      have : c = [] := by
        cases hce2 : c.isEmpty
        · exact absurd hce2 hcon
        · simpa using hce2
      subst this
      simp [rustLines, splitOnNl] at hl
    obtain ⟨m, hm, hmt⟩ := lines_trim_in_pieces c l hl
    refine ⟨⟨m, ?_, hmt⟩, h1, h2⟩
    rw [hlines m, if_neg (by simp [hce])]
    exact Or.inl hm
  · intro q hq hq'
    rw [mem_read_ignore_patterns_some]
    refine ⟨⟨q, ?_, ?_⟩, (h q hq).2, hq'⟩
    · rw [hlines q]; exact Or.inr hq
    · rw [← (h q hq).1, rustTrim_sanitize_pattern]

/-! ## The claims -/

theorem count_eq_one_of_mem_nodup {q : List Char} {l : List (List Char)}
    (hnd : l.Nodup) (hq : q ∈ l) : l.count q = 1 := by
  induction l with
  | nil => simp at hq
  | cons a t ih =>
    rw [List.nodup_cons] at hnd
    rcases List.mem_cons.mp hq with rfl | hq'
    · rw [List.count_cons_self]
      have hz : t.count q = 0 := by
        rw [List.count_eq_zero]
        exact hnd.1
      rw [hz]
    · have hqa : q ≠ a := by
        intro h
        rw [h] at hq'
        exact hnd.1 hq'
      rw [List.count_cons_of_ne hqa]
      exact ih hnd.2 hq'

theorem add_filter_pred_false_iff (avoid : Bool) (R : List (List Char))
    (x : List Char) :
    ((!x.isEmpty && (!avoid || !(decide (x ∈ R)))) = false) ↔
      (x = [] ∨ (avoid = true ∧ x ∈ R)) := by
  cases avoid <;> by_cases hx : x = [] <;> by_cases hm : x ∈ R <;>
    simp_all

/-- Claim C1: `add_patterns_to_ignore_file` returns exactly what it writes
— the appended file content is the returned list, one line each —, the
returned entries are sanitized forms of the inputs in their original
relative order, and the returned list is empty exactly when every input is
empty-after-sanitization or (with dedup) already present in the file. -/
theorem add_patterns_spec (file : Option (List Char))
    (new_patterns : List (List Char)) (avoid_duplicates : Bool)
    (vl : PatternValidationLevel) :
    ((add_patterns_to_ignore_file file new_patterns avoid_duplicates vl).1.Sublist
        (new_patterns.map sanitize_pattern)) ∧
    (∀ q ∈ (add_patterns_to_ignore_file file new_patterns avoid_duplicates vl).1,
        sanitize_pattern q = q ∧ q ≠ []) ∧
    ((add_patterns_to_ignore_file file new_patterns avoid_duplicates vl).1 = [] →
        (add_patterns_to_ignore_file file new_patterns avoid_duplicates vl).2 = file) ∧
    ((add_patterns_to_ignore_file file new_patterns avoid_duplicates vl).1 ≠ [] →
        (add_patterns_to_ignore_file file new_patterns avoid_duplicates vl).2 =
          some (appendedContent (file.getD [])
            (add_patterns_to_ignore_file file new_patterns avoid_duplicates vl).1)) ∧
    ((add_patterns_to_ignore_file file new_patterns avoid_duplicates vl).1 = [] ↔
        ∀ p ∈ new_patterns, sanitize_pattern p = [] ∨
          (avoid_duplicates = true ∧
            sanitize_pattern p ∈ read_ignore_patterns file)) := by
  refine ⟨?_, add_patterns_added_sanitized file new_patterns avoid_duplicates vl,
    ?_, ?_, ?_⟩
  · rw [add_patterns_added_eq]
    exact List.filter_sublist _
  · intro h
    rw [add_patterns_file_eq, h]
    rfl
  · intro h
    rw [add_patterns_file_eq, if_pos (by simpa using h)]
    exact write_ignore_patterns_sanitized file _
      (add_patterns_added_sanitized file new_patterns avoid_duplicates vl) h
  · rw [add_patterns_added_eq, List.filter_eq_nil_iff]
    constructor
    · intro h p hp
      have h2 := h (sanitize_pattern p) (List.mem_map_of_mem _ hp)
      rw [Bool.not_eq_true] at h2
      exact (add_filter_pred_false_iff avoid_duplicates _ _).mp h2
    · intro h a ha
      rw [List.mem_map] at ha
      obtain ⟨p, hp, rfl⟩ := ha
      rw [Bool.not_eq_true]
      exact (add_filter_pred_false_iff avoid_duplicates _ _).mpr (h p hp)

/-- Witness for C1 at concrete inputs: with dedup on a file holding `a`,
the inputs produce exactly the two sanitized additions written to the file,
and an all-duplicate-or-empty input produces the empty added-list. -/
theorem add_patterns_spec_witness :
    (add_patterns_to_ignore_file (some (cl "a\n")) [cl " b ", cl "a", cl "", cl "c"]
        true PatternValidationLevel.Warn).2 = some (cl "a\n\nb\nc\n") ∧
    (add_patterns_to_ignore_file (some (cl "a\n")) [cl "a", cl "\x0a"]
        true PatternValidationLevel.Warn).1 = [] := by
  constructor
  · exact ((add_patterns_spec (some (cl "a\n")) [cl " b ", cl "a", cl "", cl "c"]
      true PatternValidationLevel.Warn).2.2.2.1 (by decide)).trans (by decide)
  · exact (add_patterns_spec (some (cl "a\n")) [cl "a", cl "\n"]
      true PatternValidationLevel.Warn).2.2.2.2.mpr (by decide)

/-- Claim C6: `write_ignore_patterns` is a no-op (returning the file
untouched) when the pattern list is empty or every pattern sanitizes to the
empty string; otherwise, in append mode, it appends — after one leading
newline when the existing file is non-empty — each surviving sanitized
pattern as one newline-terminated line, in input order
(`appendedContent` spells out exactly that content). -/
theorem write_ignore_patterns_spec (file : Option (List Char))
    (patterns : List (List Char)) (append : Bool) :
    (patterns = [] → write_ignore_patterns file patterns append = file) ∧
    ((∀ p ∈ patterns, sanitize_pattern p = []) →
      write_ignore_patterns file patterns append = file) ∧
    ((patterns.map sanitize_pattern).filter (fun p => !p.isEmpty) ≠ [] →
      write_ignore_patterns file patterns true =
        some (appendedContent (file.getD [])
          ((patterns.map sanitize_pattern).filter (fun p => !p.isEmpty)))) := by
  refine ⟨?_, ?_, ?_⟩
  · intro h; subst h; rfl
  · intro h
    have hfil : (patterns.map sanitize_pattern).filter (fun p => !p.isEmpty) = [] := by
      rw [List.filter_eq_nil_iff]
      intro a ha
      rw [List.mem_map] at ha
      obtain ⟨p, hp, rfl⟩ := ha
      simp [h p hp]
    unfold write_ignore_patterns
    by_cases hne : patterns.isEmpty
    · rw [if_pos hne]
    · rw [if_neg hne]
      simp [hfil]
  · intro h
    have hne : ¬patterns.isEmpty = true := by
      intro hcon
      have h0 : patterns = [] := by simpa using hcon
      subst h0
      simp at h
    unfold write_ignore_patterns
    rw [if_neg hne]
    simp only []
    rw [if_neg (by simpa using h)]
    unfold appendedContent
    cases hfe : (file.getD []).isEmpty <;> simp [hfe]

/-- Witness for C6 at concrete inputs: a list that fully sanitizes away
leaves the file untouched, and a real pattern is appended after a
separating newline. -/
theorem write_ignore_patterns_spec_witness :
    write_ignore_patterns (some (cl "x")) [cl " \x0d\x0a "] true = some (cl "x") ∧
    write_ignore_patterns (some (cl "a")) [cl " b "] true = some (cl "a\nb\n") := by
  constructor
  · exact (write_ignore_patterns_spec (some (cl "x")) [cl " \r\n "] true).2.1
      (by decide)
  · exact ((write_ignore_patterns_spec (some (cl "a")) [cl " b "] true).2.2
      (by decide)).trans (by decide)

/-- Claim C9 (implicit): with dedup enabled, `add_patterns_to_ignore_file`
deduplicates only against the patterns already in the file, not within the
input list: a sanitized pattern not present in the file keeps its full
multiplicity from the input in the returned added-list, and (for a fresh
target) in the lines of the written file. -/
theorem dedup_only_against_file (file : Option (List Char))
    (new_patterns : List (List Char)) (vl : PatternValidationLevel)
    (q : List Char) (hq : q ≠ [])
    (hnotin : q ∉ read_ignore_patterns file) :
    ((add_patterns_to_ignore_file file new_patterns true vl).1.count q =
      (new_patterns.map sanitize_pattern).count q) ∧
    (file = none →
      (rustLines (((add_patterns_to_ignore_file none new_patterns true vl).2).getD
          [])).count q =
        (new_patterns.map sanitize_pattern).count q) := by
  have hqe : q.isEmpty = false := by simpa using hq
  have hpred :
      (!q.isEmpty && (!true || !(decide (q ∈ read_ignore_patterns file)))) = true := by
    simp [hqe, hnotin]
  constructor
  · rw [add_patterns_added_eq]
    exact List.count_filter hpred
  · intro hfile
    subst hfile
    have hpred0 :
        (!q.isEmpty && (!true || !(decide (q ∈ read_ignore_patterns none)))) = true := by
      simp [hqe]
      intro hmem
      simp [read_ignore_patterns] at hmem
    by_cases hA : (add_patterns_to_ignore_file none new_patterns true vl).1 = []
    · rw [add_patterns_file_eq, if_neg (by simp [hA])]
      have hz : (new_patterns.map sanitize_pattern).count q = 0 := by
        rw [add_patterns_added_eq, List.filter_eq_nil_iff] at hA
        rw [List.count_eq_zero]
        intro hmem
        exact (hA q hmem) hpred0
      simp [hz, rustLines, splitOnNl]
    · have hsan := add_patterns_added_sanitized none new_patterns true vl
      rw [add_patterns_file_eq, if_pos (by simpa using hA)]
      rw [write_ignore_patterns_sanitized none _ hsan hA]
      have hnl : ∀ p ∈ (add_patterns_to_ignore_file none new_patterns true vl).1,
          '\n' ∉ p := by
        intro p hp
        rw [← (hsan p hp).1]
        exact sanitize_pattern_no_nl
      have hcr : ∀ p ∈ (add_patterns_to_ignore_file none new_patterns true vl).1,
          '\r' ∉ p := by
        intro p hp
        rw [← (hsan p hp).1]
        exact sanitize_pattern_no_cr
      have hac : appendedContent ((none : Option (List Char)).getD [])
          (add_patterns_to_ignore_file none new_patterns true vl).1 =
          writtenBlock (add_patterns_to_ignore_file none new_patterns true vl).1 := by
        simp [appendedContent]
      rw [Option.getD_some, hac, rustLines_writtenBlock _ hnl hcr,
        add_patterns_added_eq]
      exact List.count_filter hpred0

/-- Witness for C9 at a concrete input: the pattern `a` appears twice in
one call (raw and with spaces), is not in the target file, and is returned
and written twice. -/
theorem dedup_only_against_file_witness :
    (add_patterns_to_ignore_file (some (cl "b\n")) [cl "a", cl " a "] true
        PatternValidationLevel.Warn).1.count (cl "a") = 2 ∧
    (rustLines (((add_patterns_to_ignore_file none [cl "a", cl " a "] true
        PatternValidationLevel.Warn).2).getD [])).count (cl "a") = 2 := by
  constructor
  · exact ((dedup_only_against_file (some (cl "b\n")) [cl "a", cl " a "]
      PatternValidationLevel.Warn (cl "a") (by decide) (by decide)).1).trans (by decide)
  · exact (((dedup_only_against_file none [cl "a", cl " a "]
      PatternValidationLevel.Warn (cl "a") (by decide) (by decide)).2) rfl).trans
      (by decide)

/-- Counterexample to claim C2 as stated: a pattern whose sanitized form
starts with `#` is read back as a comment, so dedup never sees it — the
second identical call returns a non-empty added-list and grows the file
(and the file ends up holding the pattern twice, not once). -/
theorem add_twice_dedup_counterexample :
    (add_patterns_to_ignore_file
        (add_patterns_to_ignore_file none [cl "#f"] true
          PatternValidationLevel.Warn).2
        [cl "#f"] true PatternValidationLevel.Warn).1 = [cl "#f"] ∧
    (add_patterns_to_ignore_file
        (add_patterns_to_ignore_file none [cl "#f"] true
          PatternValidationLevel.Warn).2
        [cl "#f"] true PatternValidationLevel.Warn).2 =
      some (cl "#f\n\n#f\n") := by
  exact ⟨by decide, by decide⟩

/-- Claim C2, amended: provided no input pattern sanitizes to a
comment-looking string (leading `#`), calling add-with-dedup twice with the
identical list returns an empty added-list on the second call and leaves
the file unchanged; and when additionally the target was fresh and the
sanitized non-empty forms are pairwise distinct, the file holds each
pattern exactly once. -/
theorem add_twice_dedup_amended (file : Option (List Char))
    (ps : List (List Char)) (vl vl' : PatternValidationLevel)
    (hc : ∀ p ∈ ps, (sanitize_pattern p).head? ≠ some '#') :
    ((add_patterns_to_ignore_file
        (add_patterns_to_ignore_file file ps true vl).2 ps true vl').1 = [] ∧
     (add_patterns_to_ignore_file
        (add_patterns_to_ignore_file file ps true vl).2 ps true vl').2 =
       (add_patterns_to_ignore_file file ps true vl).2) ∧
    (file = none →
      ((ps.map sanitize_pattern).filter (fun p => !p.isEmpty)).Nodup →
      ∀ q ∈ (ps.map sanitize_pattern).filter (fun p => !p.isEmpty),
        (rustLines (((add_patterns_to_ignore_file none ps true vl).2).getD
            [])).count q = 1) := by
  have hsan := add_patterns_added_sanitized file ps true vl
  -- every sanitized non-empty input pattern is readable from the file the
  -- first call leaves behind
  have hsub : ∀ x ∈ ps.map sanitize_pattern, x ≠ [] →
      x ∈ read_ignore_patterns (add_patterns_to_ignore_file file ps true vl).2 := by
    intro x hx hxne
    rw [List.mem_map] at hx
    obtain ⟨p, hp, rfl⟩ := hx
    by_cases hA : (add_patterns_to_ignore_file file ps true vl).1 = []
    · rw [add_patterns_file_eq, if_neg (by simp [hA])]
      rw [add_patterns_added_eq, List.filter_eq_nil_iff] at hA
      have h2 := hA (sanitize_pattern p) (List.mem_map_of_mem _ hp)
      rw [Bool.not_eq_true] at h2
      rcases (add_filter_pred_false_iff true _ _).mp h2 with h3 | h3
      · exact absurd h3 hxne
      · exact h3.2
    · rw [add_patterns_file_eq, if_pos (by simpa using hA),
        write_ignore_patterns_sanitized file _ hsan hA]
      have hm := mem_read_appendedContent (file.getD [])
        (add_patterns_to_ignore_file file ps true vl).1 hsan
      by_cases hmem :
          sanitize_pattern p ∈ (add_patterns_to_ignore_file file ps true vl).1
      · exact hm.2 _ hmem (hc p hp)
      · -- not added, so it was filtered out as a duplicate already present
        rw [add_patterns_added_eq] at hmem
        have hpred :
            ¬((!(sanitize_pattern p).isEmpty && (!true ||
              !(decide (sanitize_pattern p ∈ read_ignore_patterns file)))) = true) := by
          intro hcon
          exact hmem (List.mem_filter.mpr ⟨List.mem_map_of_mem _ hp, hcon⟩)
        rw [Bool.not_eq_true] at hpred
        rcases (add_filter_pred_false_iff true _ _).mp hpred with h3 | h3
        · exact absurd h3 hxne
        · have hold : sanitize_pattern p ∈ read_ignore_patterns file := h3.2
          cases hfi : file with
          | none => rw [hfi] at hold; simp [read_ignore_patterns] at hold
          | some c =>
            rw [hfi] at hold
            have := hm.1 (sanitize_pattern p) (by rw [hfi]; simpa using hold)
            simpa [hfi] using this
  have hA2 : (add_patterns_to_ignore_file
      (add_patterns_to_ignore_file file ps true vl).2 ps true vl').1 = [] := by
    rw [add_patterns_added_eq, List.filter_eq_nil_iff]
    intro a ha hcon
    rw [Bool.and_eq_true] at hcon
    have hane : a ≠ [] := by
      intro h0
      rw [h0] at hcon
      simp at hcon
    have hmem := hsub a ha hane
    have hcon2 := hcon.2
    rw [Bool.or_eq_true] at hcon2
    rcases hcon2 with h4 | h4
    · simp at h4
    · rw [Bool.not_eq_true', decide_eq_false_iff_not] at h4
      exact h4 hmem
  refine ⟨⟨hA2, ?_⟩, ?_⟩
  · rw [add_patterns_file_eq, if_neg (by simp [hA2])]
  · intro hfile hnd q hq
    subst hfile
    have hS : (add_patterns_to_ignore_file none ps true vl).1 =
        (ps.map sanitize_pattern).filter (fun p => !p.isEmpty) := by
      rw [add_patterns_added_eq]
      apply List.filter_congr
      intro a _
      simp [read_ignore_patterns]
    have hASne : (add_patterns_to_ignore_file none ps true vl).1 ≠ [] := by
      rw [hS]
      exact List.ne_nil_of_mem hq
    have hsan0 := add_patterns_added_sanitized none ps true vl
    rw [add_patterns_file_eq, if_pos (by simpa using hASne),
      write_ignore_patterns_sanitized none _ hsan0 hASne]
    have hnl : ∀ p ∈ (add_patterns_to_ignore_file none ps true vl).1,
        '\n' ∉ p := by
      intro p hp
      rw [← (hsan0 p hp).1]
      exact sanitize_pattern_no_nl
    have hcr : ∀ p ∈ (add_patterns_to_ignore_file none ps true vl).1,
        '\r' ∉ p := by
      intro p hp
      rw [← (hsan0 p hp).1]
      exact sanitize_pattern_no_cr
    have hac : appendedContent ((none : Option (List Char)).getD [])
        (add_patterns_to_ignore_file none ps true vl).1 =
        writtenBlock (add_patterns_to_ignore_file none ps true vl).1 := by
      simp [appendedContent]
    rw [Option.getD_some, hac, rustLines_writtenBlock _ hnl hcr, hS]
    exact count_eq_one_of_mem_nodup hnd hq

/-- Witness for the amended C2 at a concrete input: the standard two-pattern
scenario — the second identical call adds nothing and each pattern is on
exactly one line. -/
theorem add_twice_dedup_amended_witness :
    (add_patterns_to_ignore_file
        (add_patterns_to_ignore_file none [cl "*.pyc", cl "__pycache__/"] true
          PatternValidationLevel.Warn).2
        [cl "*.pyc", cl "__pycache__/"] true PatternValidationLevel.Warn).1 = [] ∧
    (rustLines (((add_patterns_to_ignore_file none [cl "*.pyc", cl "__pycache__/"]
        true PatternValidationLevel.Warn).2).getD [])).count (cl "*.pyc") = 1 := by
  have h := add_twice_dedup_amended none [cl "*.pyc", cl "__pycache__/"]
    PatternValidationLevel.Warn PatternValidationLevel.Warn (by decide)
  exact ⟨h.1.1, h.2 rfl (by decide) (cl "*.pyc") (by decide)⟩

/-- Counterexample to claim C3 as stated: a pattern consisting of just a
newline contains `\n` but sanitizes to the empty string, so validation
skips it entirely and produces no issue at all. -/
theorem validate_newline_counterexample :
    '\n' ∈ cl "\n" ∧ validate_ignore_patterns [cl "\n"] = [] :=
  ⟨by decide, by decide⟩

/-- Claim C3, amended: `validate_ignore_patterns` is a pure total function
(it is a Lean function here, so it never fails and cannot mutate its
input), and every pattern that contains `\n` and whose sanitized form is
non-empty contributes at least one Error-severity issue. -/
theorem validate_newline_amended (patterns : List (List Char)) (p : List Char)
    (hp : p ∈ patterns) (hnl : '\n' ∈ p) (hs : sanitize_pattern p ≠ []) :
    ∃ i ∈ validate_ignore_patterns patterns,
      i.severity = PatternSeverity.Error := by
  refine ⟨{ pattern := p, severity := PatternSeverity.Error,
            message :=
              "Pattern contains newline characters which will corrupt the ignore file" },
    ?_, rfl⟩
  unfold validate_ignore_patterns
  rw [List.mem_flatMap]
  refine ⟨p, hp, ?_⟩
  simp only [issues_for_pattern]
  rw [if_neg (by simpa using hs), if_pos (by simp [hnl])]
  simp

/-- Witness for the amended C3 at a concrete input. -/
theorem validate_newline_amended_witness :
    ∃ i ∈ validate_ignore_patterns [cl "a\nb"],
      i.severity = PatternSeverity.Error :=
  validate_newline_amended [cl "a\nb"] (cl "a\nb") (by decide) (by decide)
    (by decide)

theorem issues_for_pattern_cases (p : List Char) (i : PatternIssue)
    (h : i ∈ issues_for_pattern p) :
    (i.severity = PatternSeverity.Error ∧ i.pattern = p ∧
      ('\n' ∈ p ∨ '\r' ∈ p)) ∨
    (i.severity ≠ PatternSeverity.Error ∧ i.pattern = sanitize_pattern p) := by
  simp only [issues_for_pattern] at h
  by_cases hs : (sanitize_pattern p).isEmpty
  · rw [if_pos hs] at h
    simp at h
  · rw [if_neg hs] at h
    rcases List.mem_append.mp h with h | h
    · rcases List.mem_append.mp h with h | h
      · rcases List.mem_append.mp h with h | h
        · rcases List.mem_append.mp h with h | h
          · rcases List.mem_append.mp h with h | h
            · split at h
              · rename_i hc
                obtain rfl := List.mem_singleton.mp h
                left
                refine ⟨rfl, rfl, ?_⟩
                rw [Bool.or_eq_true] at hc
                rcases hc with hc | hc
                · exact Or.inl (of_decide_eq_true hc)
                · exact Or.inr (of_decide_eq_true hc)
              · simp at h
            · split at h
              · obtain rfl := List.mem_singleton.mp h
                exact Or.inr ⟨by simp, rfl⟩
              · simp at h
          · split at h
            · obtain rfl := List.mem_singleton.mp h
              exact Or.inr ⟨by simp, rfl⟩
            · simp at h
        · split at h
          · obtain rfl := List.mem_singleton.mp h
            exact Or.inr ⟨by simp, rfl⟩
          · simp at h
      · split at h
        · obtain rfl := List.mem_singleton.mp h
          exact Or.inr ⟨by simp, rfl⟩
        · simp at h
    · split at h
      · obtain rfl := List.mem_singleton.mp h
        exact Or.inr ⟨by simp, rfl⟩
      · simp at h

/-- Claim C10 (implicit): every Error-severity issue carries the raw input
pattern (which indeed contains a newline or carriage return); every Info-
or Warning-severity issue carries the sanitized form of an input pattern. -/
theorem issue_pattern_field_spec (patterns : List (List Char))
    (i : PatternIssue) (hi : i ∈ validate_ignore_patterns patterns) :
    (i.severity = PatternSeverity.Error →
      ∃ p ∈ patterns, i.pattern = p ∧ ('\n' ∈ p ∨ '\r' ∈ p)) ∧
    (i.severity ≠ PatternSeverity.Error →
      ∃ p ∈ patterns, i.pattern = sanitize_pattern p) := by
  unfold validate_ignore_patterns at hi
  rw [List.mem_flatMap] at hi
  obtain ⟨p, hp, hip⟩ := hi
  rcases issues_for_pattern_cases p i hip with ⟨h1, h2, h3⟩ | ⟨h1, h2⟩
  · exact ⟨fun _ => ⟨p, hp, h2, h3⟩, fun hne => absurd h1 hne⟩
  · exact ⟨fun he => absurd he h1, fun _ => ⟨p, hp, h2⟩⟩

/-- Witness for C10 at a concrete input: the raw pattern `./a\nb` produces
an Error issue carrying the raw string and an Info issue carrying the
sanitized `./ab`. -/
theorem issue_pattern_field_spec_witness :
    (∃ p ∈ [cl "./a\nb"],
      (PatternIssue.mk (cl "./a\nb") PatternSeverity.Error
        "Pattern contains newline characters which will corrupt the ignore file").pattern
          = p ∧ ('\n' ∈ p ∨ '\r' ∈ p)) ∧
    (∃ p ∈ [cl "./a\nb"],
      (PatternIssue.mk (cl "./ab") PatternSeverity.Info
        "Pattern starts with './' which is redundant").pattern
          = sanitize_pattern p) := by
  constructor
  · exact (issue_pattern_field_spec [cl "./a\nb"]
      (PatternIssue.mk (cl "./a\nb") PatternSeverity.Error
        "Pattern contains newline characters which will corrupt the ignore file")
      (by decide)).1 rfl
  · exact (issue_pattern_field_spec [cl "./a\nb"]
      (PatternIssue.mk (cl "./ab") PatternSeverity.Info
        "Pattern starts with './' which is redundant")
      (by decide)).2 (by decide)

/-- Claim C4: once a git-directory or repository-root resolution has
completed, every subsequent call returns the identical cached result —
success or failure — without invoking the external tool again (the `false`
flag), leaves the process state unchanged, and calls to one resolver do not
disturb the other's cache. -/
theorem git_caches_idempotent (s : ProcessState)
    (r r' u u' : Except GitError (List Char)) :
    ((get_git_dir r' (get_git_dir r s).2.1).1 = (get_git_dir r s).1 ∧
     (get_git_dir r' (get_git_dir r s).2.1).2.1 = (get_git_dir r s).2.1 ∧
     (get_git_dir r' (get_git_dir r s).2.1).2.2 = false) ∧
    ((get_repo_root u' (get_repo_root u s).2.1).1 = (get_repo_root u s).1 ∧
     (get_repo_root u' (get_repo_root u s).2.1).2.1 = (get_repo_root u s).2.1 ∧
     (get_repo_root u' (get_repo_root u s).2.1).2.2 = false) ∧
    ((get_repo_root u (get_git_dir r s).2.1).2.1.gitDirCache =
      (get_git_dir r s).2.1.gitDirCache) ∧
    ((get_git_dir r (get_repo_root u s).2.1).2.1.repoRootCache =
      (get_repo_root u s).2.1.repoRootCache) := by
  obtain ⟨g, rr⟩ := s
  cases g <;> cases rr <;>
    simp [get_git_dir, get_repo_root, once_lock_get_or_init]

/-- Claim C8: writing a non-empty list of already-sanitized, unique,
non-empty, non-comment patterns to a fresh file and reading it back yields
exactly that set of patterns (membership in both directions). -/
theorem write_read_round_trip (file : Option (List Char))
    (patterns : List (List Char)) (append : Bool)
    (hfresh : file = none ∨ file = some [])
    (hs : ∀ p ∈ patterns, sanitize_pattern p = p)
    (hne : ∀ p ∈ patterns, p ≠ [])
    (hnc : ∀ p ∈ patterns, p.head? ≠ some '#')
    (_hnd : patterns.Nodup)
    (hlist : patterns ≠ []) :
    ∀ q, q ∈ read_ignore_patterns (write_ignore_patterns file patterns append) ↔
      q ∈ patterns := by
  have hmap : patterns.map sanitize_pattern = patterns :=
    (List.map_congr_left (fun q hq => hs q hq)).trans (List.map_id patterns)
  have hfil : (patterns.map sanitize_pattern).filter (fun p => !p.isEmpty) =
      patterns := by
    rw [hmap, List.filter_eq_self]
    intro q hq
    simpa using hne q hq
  have hwrite : write_ignore_patterns file patterns append =
      some (writtenBlock patterns) := by
    unfold write_ignore_patterns
    rw [if_neg (by simpa using hlist)]
    simp only [hfil]
    rw [if_neg (by simpa using hlist)]
    rcases hfresh with rfl | rfl
    · cases append <;> simp
    · cases append <;> simp
  rw [hwrite]
  intro q
  rw [mem_read_ignore_patterns_some]
  have hnl : ∀ p ∈ patterns, '\n' ∉ p := by
    intro p hp
    rw [← hs p hp]
    exact sanitize_pattern_no_nl
  have hcr : ∀ p ∈ patterns, '\r' ∉ p := by
    intro p hp
    rw [← hs p hp]
    exact sanitize_pattern_no_cr
  rw [rustLines_writtenBlock patterns hnl hcr]
  constructor
  · rintro ⟨⟨l, hl, rfl⟩, h1, h2⟩
    have htr : rustTrim l = l := by
      rw [← hs l hl]
      exact rustTrim_sanitize_pattern l
    rw [htr]
    exact hl
  · intro hq
    refine ⟨⟨q, hq, ?_⟩, hne q hq, hnc q hq⟩
    rw [← hs q hq]
    exact rustTrim_sanitize_pattern q

/-- Witness for C8 at a concrete input. -/
theorem write_read_round_trip_witness :
    cl "*.pyc" ∈ read_ignore_patterns
      (write_ignore_patterns none [cl "*.pyc", cl "b"] true) :=
  (write_read_round_trip none [cl "*.pyc", cl "b"] true (Or.inl rfl) (by decide)
    (by decide) (by decide) (by decide) (by decide) (cl "*.pyc")).mpr (by decide)

/-- Claim C7: reading a missing file yields the empty set rather than a
failure, and the set read from an existing file holds exactly the trimmed
lines that are non-empty and do not start with a `#`. -/
theorem read_ignore_patterns_spec :
    read_ignore_patterns none = [] ∧
    ∀ (content p : List Char),
      p ∈ read_ignore_patterns (some content) ↔
        ((∃ l ∈ rustLines content, rustTrim l = p) ∧ p ≠ [] ∧
          p.head? ≠ some '#') :=
  ⟨rfl, fun _ _ => mem_read_ignore_patterns_some⟩

/-- Counterexample to claim C5 as stated: with the configured setting
`~/x`, no home directory, and an existing `$XDG_CONFIG_HOME/git/ignore`,
the source returns nothing even though a candidate exists on disk — the
early `return None` skips the remaining candidates instead of falling
through to them. -/
theorem global_gitignore_counterexample :
    get_global_gitignore_path
      { configExcludesfile := some (cl "~/x"), home := none,
        xdgConfigHome := some (cl "/xdg"),
        fileExists := fun p => p = cl "/xdg/git/ignore" } = none ∧
    (GlobalEnv.fileExists
      { configExcludesfile := some (cl "~/x"), home := none,
        xdgConfigHome := some (cl "/xdg"),
        fileExists := fun p => p = cl "/xdg/git/ignore" }
      (path_join (path_join (cl "/xdg") (cl "git")) (cl "ignore")) = true) ∧
    spec_resolveGlobalIgnorePath
      { configExcludesfile := some (cl "~/x"), home := none,
        xdgConfigHome := some (cl "/xdg"),
        fileExists := fun p => p = cl "/xdg/git/ignore" } =
      some (cl "/xdg/git/ignore") := by
  exact ⟨by decide, by decide, by decide⟩

/-- Claim C5, amended: `get_global_gitignore_path` never fails (it is
total), and it returns the first existing candidate of the spec's ordered
chain — except that when the configured excludes setting needs home
expansion (a leading `~` component or a relative path) while no home
directory is known, it returns nothing immediately without trying the
remaining candidates. -/
theorem global_gitignore_amended (env : GlobalEnv) :
    get_global_gitignore_path env =
      (if config_expansion_blocked env then none
       else spec_resolveGlobalIgnorePath env) := by
  obtain ⟨cfg, home, xdg, fx⟩ := env
  cases cfg <;> cases home <;> cases xdg <;>
    simp only [get_global_gitignore_path, config_expansion_blocked,
      spec_resolveGlobalIgnorePath, spec_global_candidates,
      spec_expand_against_home, default_gitignore_locations,
      home_default_gitignore, List.find?, List.nil_append, List.cons_append,
      List.append_nil, Option.isNone_some, Option.isNone_none] <;>
    repeat' split <;>
    simp_all <;>
    aesop

end GitIgnore
